import Mathlib

/-!
Shallow embedding of the `ripcord` text-model core (src/text.rs, src/buffer.rs,
src/cursor.rs) and verification of its specification claims.

Modelling conventions:
* UTF-16 code units are `Nat` values (each below 2 ^ 16 for real encodings);
  `String.encode_utf16` from Rust is embedded as `encodeUtf16`, performing the
  standard UTF-16 encoding of each scalar value.
* Machine-integer truncation is explicit: `Position.hash`'s `as u32` cast is
  `% 2 ^ 32`.
* A Rust operation that can panic (slice indexing) is embedded as an
  `Option`-returning function where `none` marks the panic.
-/

/-- Embeds `Position` (src/text.rs): a line/column pair of `usize` values. -/
structure Position where
  line : Nat
  column : Nat
deriving DecidableEq, Repr

namespace Position

/-- Embeds `Position::MAX_COLUMN`. -/
def MAX_COLUMN : Nat := 255

/-- Embeds `Position::default()` (the derived `Default`): both fields zero. -/
def default : Position := { line := 0, column := 0 }

/-- Embeds `Position::clamp`. -/
def clamp (p : Position) : Position :=
  { line := p.line, column := min p.column MAX_COLUMN }

/-- Embeds `Position::hash`: `(self.line << 24 | self.column & Self::MAX_COLUMN) as u32`.
The shift and bitwise operations happen at `usize` width and the result is cast
to `u32`; the final `% 2 ^ 32` models that cast.  (Wrapping at 2 ^ 64 before the
cast would not change the result, since `2 ^ 32` divides `2 ^ 64`.) -/
def hash (p : Position) : Nat :=
  ((p.line <<< 24) ||| (p.column &&& MAX_COLUMN)) % 2 ^ 32

/-- Embeds `PartialEq for Position`: equality of the packed hashes. -/
def beq (p q : Position) : Bool := p.hash == q.hash

/-- Embeds `PartialOrd for Position`: comparison of the packed hashes. -/
def cmp (p q : Position) : Ordering := compare p.hash q.hash

end Position

/-- Embeds `Boundary` (src/buffer.rs): an origin plus width/height extents. -/
structure Boundary where
  origin : Position
  width : Nat
  height : Nat
deriving DecidableEq, Repr

namespace Boundary

/-- Embeds `Boundary::default()`: zero origin, zero extents. -/
def default : Boundary := { origin := Position.default, width := 0, height := 0 }

/-- Embeds `Boundary::intersect`: keeps `self.origin`, takes component-wise minima. -/
def intersect (a b : Boundary) : Boundary :=
  { origin := a.origin, width := min a.width b.width, height := min a.height b.height }

/-- Embeds `Boundary::union`: keeps `self.origin`, takes component-wise maxima. -/
def union (a b : Boundary) : Boundary :=
  { origin := a.origin, width := max a.width b.width, height := max a.height b.height }

/-- Embeds `Boundary::contains`: `width <= self.width && height <= self.height`
where `width`/`height` are destructured from the argument. -/
def contains (a b : Boundary) : Bool :=
  decide (b.width ≤ a.width) && decide (b.height ≤ a.height)

/-- Embeds the derived `PartialEq for Boundary`, which compares the `origin`
fields with `Position`'s custom (hash-based) equality. -/
def beq (a b : Boundary) : Bool :=
  Position.beq a.origin b.origin && a.width == b.width && a.height == b.height

end Boundary

/-- Embeds `TextRange` (src/text.rs): a closed code-unit index range. -/
structure TextRange where
  start : Nat
  «end» : Nat
deriving DecidableEq, Repr

namespace TextRange

/-- Embeds `TextRange::units`: `self.end - self.start` (truncated subtraction;
in Rust this would underflow-panic when `end < start`, which the construction
scan never produces). -/
def units (r : TextRange) : Nat := r.«end» - r.start

end TextRange

/-- UTF-16 encoding of one scalar value, as performed by Rust's
`str::encode_utf16`: BMP scalars are one unit, the rest a surrogate pair. -/
def utf16EncodeChar (c : Char) : List Nat :=
  let n := c.toNat
  if n < 0x10000 then [n]
  else [0xD800 + (n - 0x10000) / 0x400, 0xDC00 + (n - 0x10000) % 0x400]

/-- Embeds `text.as_ref().encode_utf16().collect()`. -/
def encodeUtf16 (s : String) : List Nat := s.data.flatMap utf16EncodeChar

/-- The accumulator of the `new_delimitered` scan: the mutable
`width_descriminator` variable together with the folded `Vec<TextRange>`. -/
structure ScanState where
  width : Nat
  ranges : List TextRange
deriving DecidableEq, Repr

/-- The `prev_lf` computation inside `new_delimitered`'s fold:
`if acc.is_empty() { 0 } else { acc.last().unwrap().end + 1 }`. -/
def prevLf (rs : List TextRange) : Nat :=
  match rs.getLast? with
  | none => 0
  | some r => r.«end» + 1

/-- One step of `new_delimitered`'s fold over the enumerated code units:
on an LF unit, close a range from `prev_lf` through the current index and
raise the width discriminator when the new range is wider. -/
def scanStep (st : ScanState) (p : Nat × Nat) : ScanState :=
  if p.2 == 10 then
    let range : TextRange := { start := prevLf st.ranges, «end» := p.1 }
    { width := if range.units > st.width then range.units else st.width,
      ranges := st.ranges ++ [range] }
  else st

/-- The whole scan of `new_delimitered`: fold `scanStep` over the
index-enumerated code units starting from zero width and no ranges. -/
def scan (cps : List Nat) : ScanState :=
  (List.enumFrom 0 cps).foldl scanStep { width := 0, ranges := [] }

/-- The index one past the last discovered line terminator (0 when none):
`prevLf` of the final scan state. -/
def scanStop (cps : List Nat) : Nat := prevLf (scan cps).ranges

/-- Embeds `TextNode` (src/text.rs), minus the process-unique `NodeId` (the
identity only orders nodes inside a buffer; the buffer embedding keeps nodes
in creation order directly, which is what the monotone identities produce). -/
structure TextNode where
  code_points : List Nat
  line_endings : List TextRange
  dimensions : Boundary
deriving DecidableEq, Repr

namespace TextNode

/-- Embeds `TextNode::new_delimitered`: encode to UTF-16, scan for LF units
closing a `TextRange` at each, and record `height` as the number of ranges and
`width` as the running maximum of their `units()`. -/
def new_delimitered (text : String) : TextNode :=
  let code_points := encodeUtf16 text
  let st := scan code_points
  { code_points := code_points,
    line_endings := st.ranges,
    dimensions :=
      { origin := Position.default, height := st.ranges.length, width := st.width } }

end TextNode

/-- Decoding of a UTF-16 code-unit sequence, as performed by Rust's
`String::from_utf16`: `none` exactly when some surrogate unit is unpaired. -/
def utf16Decode : List Nat → Option (List Char)
  | [] => some []
  | [u] =>
    if u < 0xD800 ∨ 0xE000 ≤ u then some [Char.ofNat u] else none
  | u :: v :: rest =>
    if u < 0xD800 ∨ 0xE000 ≤ u then
      (utf16Decode (v :: rest)).map (fun cs => Char.ofNat u :: cs)
    else if u < 0xDC00 ∧ 0xDC00 ≤ v ∧ v < 0xE000 then
      (utf16Decode rest).map
        (fun cs => Char.ofNat (0x10000 + (u - 0xD800) * 0x400 + (v - 0xDC00)) :: cs)
    else none

/-- The inclusive slice `&code_points[start..=end]` taken by `lines`, as the
drop/take segment.  The scan only ever produces in-bounds ranges, for which
this agrees with the Rust slice. -/
def sliceIncl (cps : List Nat) (r : TextRange) : List Nat :=
  (cps.drop r.start).take (r.«end» + 1 - r.start)

namespace TextNode

/-- Embeds `TextNode::lines`: per stored range, slice the code units and decode;
`flat_map` over the `Result` keeps only successful decodes, i.e. `filterMap`. -/
def lines (n : TextNode) : List String :=
  n.line_endings.filterMap
    (fun r => (utf16Decode (sliceIncl n.code_points r)).map String.mk)

end TextNode

/-- Embeds `TextCursor` (src/text.rs): a position plus the borrowed node. -/
structure TextCursor where
  position : Position
  node : TextNode
deriving DecidableEq, Repr

namespace TextCursor

/-- Embeds `TextCursor::new`: default position over the given node. -/
def new (n : TextNode) : TextCursor := { position := Position.default, node := n }

end TextCursor

/-- The Rust half-open slice `&v[a..b]`: `none` models the index panic, which
happens exactly when `a > b` or `b > v.len()`. -/
def sliceRange (l : List Nat) (a b : Nat) : Option (List Nat) :=
  if a ≤ b ∧ b ≤ l.length then some ((l.drop a).take (b - a)) else none

namespace TextCursor

/-- Embeds `Cursor::seek for TextCursor`: slice the node's code units from the
current column up to (exclusive) `to.column`, move the position to `to`, and
return `Some` of the slice.  The outer `Option` is the panic model (`none` =
index fault); the inner `Option` is the Rust return type, always `some` here. -/
def seek (c : TextCursor) (t : Position) : Option (Option (List Nat) × TextCursor) :=
  match sliceRange c.node.code_points c.position.column t.column with
  | some s => some (some s, { c with position := t })
  | none => none

end TextCursor

/-- Embeds `TextBuffer` (src/buffer.rs).  The `BTreeSet<TextNode>` orders nodes
by the derived `Ord`, whose first component is the strictly increasing
`NodeId`, so iteration order is creation (push) order; the embedding keeps the
nodes as a list in push order. -/
structure TextBuffer where
  nodes : List TextNode
  boundary : Boundary
deriving DecidableEq, Repr

namespace TextBuffer

/-- Embeds `TextBuffer::new`: no nodes, default boundary. -/
def new : TextBuffer := { nodes := [], boundary := Boundary.default }

/-- Embeds `TextBuffer::push`: union the node's dimensions into the boundary
and insert the node (fresh identities make the set insert an append). -/
def push (b : TextBuffer) (n : TextNode) : TextBuffer :=
  { nodes := b.nodes ++ [n], boundary := b.boundary.union n.dimensions }

/-- Embeds `Display for TextBuffer`: write every node's lines in node order. -/
def display (b : TextBuffer) : String :=
  String.join (b.nodes.flatMap TextNode.lines)

end TextBuffer

/-! ### Helper lemmas -/

/-- Masking with `MAX_COLUMN = 255 = 2 ^ 8 - 1` is reduction mod 256. -/
lemma and_255_eq_mod (x : Nat) : x &&& 255 = x % 256 := by
  apply Nat.eq_of_testBit_eq
  intro i
  have h255 : (255 : Nat) = 2 ^ 8 - 1 := by norm_num
  have h256 : (256 : Nat) = 2 ^ 8 := by norm_num
  rw [h255, h256, Nat.testBit_mod_two_pow, Nat.testBit_and, Nat.testBit_two_pow_sub_one,
    Bool.and_comm]

/-- Reduction mod a power of two distributes over bitwise or. -/
lemma lor_mod_two_pow (a b n : Nat) : (a ||| b) % 2 ^ n = (a % 2 ^ n) ||| (b % 2 ^ n) := by
  apply Nat.eq_of_testBit_eq
  intro i
  simp [Nat.testBit_mod_two_pow, Nat.testBit_lor, Bool.and_or_distrib_left]

/-- Closed form of the packed key: it only sees `line` mod 256 and `column`
mod 256, because the `as u32` cast drops all but the low 8 bits of `line`. -/
lemma Position.hash_eq_mod (p : Position) :
    p.hash = ((p.line % 256) * 2 ^ 24) ||| (p.column % 256) := by
  unfold Position.hash Position.MAX_COLUMN
  rw [Nat.shiftLeft_eq, and_255_eq_mod, lor_mod_two_pow]
  have h1 : p.line * 2 ^ 24 % 2 ^ 32 = p.line % 256 * 2 ^ 24 := by
    have : (2 : Nat) ^ 32 = 256 * 2 ^ 24 := by norm_num
    rw [this, Nat.mul_mod_mul_right]
  have h2 : p.column % 256 % 2 ^ 32 = p.column % 256 := by
    exact Nat.mod_eq_of_lt (lt_of_lt_of_le (Nat.mod_lt _ (by norm_num)) (by norm_num))
  rw [h1, h2]

/-! ### Claims about Position -/

/-- C2: equality and ordering of `Position` are decided by the packed 32-bit
key `line << 24 | (column & 255)` (the `hash`), so equality is not injective
in the fields: `{line 1, column 300}` and `{line 1, column 44}` compare equal
although their `column` fields differ. -/
theorem position_eq_packed_key :
    (∀ p q : Position,
      (Position.beq p q = true ↔ p.hash = q.hash) ∧ Position.cmp p q = compare p.hash q.hash)
    ∧ Position.beq { line := 1, column := 300 } { line := 1, column := 44 } = true
    ∧ ({ line := 1, column := 300 } : Position).column ≠
        ({ line := 1, column := 44 } : Position).column := by
  refine ⟨fun p q => ⟨?_, rfl⟩, by decide, by decide⟩
  simp [Position.beq]

/-- C10: the packed key truncates `line` as well as `column`: positions whose
columns agree mod 256 and whose lines agree mod 256 compare equal; e.g.
`{line 256, column 0}` collides with `{line 0, column 0}`. -/
theorem position_hash_line_truncation (p q : Position)
    (hl : p.line % 256 = q.line % 256) (hc : p.column % 256 = q.column % 256) :
    p.hash = q.hash ∧ Position.beq p q = true := by
  have h : p.hash = q.hash := by
    rw [Position.hash_eq_mod, Position.hash_eq_mod, hl, hc]
  exact ⟨h, by simp [Position.beq, h]⟩

/-- Witness for C10 at `{line 256, column 0}` versus `{line 0, column 0}`. -/
theorem position_hash_line_truncation_witness :
    Position.beq { line := 256, column := 0 } { line := 0, column := 0 } = true :=
  (position_hash_line_truncation { line := 256, column := 0 } { line := 0, column := 0 }
    (by decide) (by decide)).2

/-! ### Claims about Boundary -/

/-- C4: `union` keeps the left origin and takes component-wise maxima,
`intersect` keeps the left origin and takes component-wise minima, and both
are commutative in the width and height components. -/
theorem boundary_union_intersect_components (a b : Boundary) :
    (a.union b).origin = a.origin
    ∧ (a.union b).width = max a.width b.width
    ∧ (a.union b).height = max a.height b.height
    ∧ (a.intersect b).origin = a.origin
    ∧ (a.intersect b).width = min a.width b.width
    ∧ (a.intersect b).height = min a.height b.height
    ∧ (a.union b).width = (b.union a).width
    ∧ (a.union b).height = (b.union a).height
    ∧ (a.intersect b).width = (b.intersect a).width
    ∧ (a.intersect b).height = (b.intersect a).height := by
  refine ⟨rfl, rfl, rfl, rfl, rfl, rfl, ?_, ?_, ?_, ?_⟩ <;>
    simp [Boundary.union, Boundary.intersect, Nat.max_comm, Nat.min_comm]

/-- C8: `contains` holds iff the other's width and height are bounded by ours;
the origin fields of both operands play no role. -/
theorem boundary_contains_iff (a b : Boundary) :
    (a.contains b = true ↔ b.width ≤ a.width ∧ b.height ≤ a.height)
    ∧ (∀ o o' : Position,
        Boundary.contains { a with origin := o } { b with origin := o' } = a.contains b) := by
  exact ⟨by simp [Boundary.contains], fun o o' => rfl⟩

/-- Witness for C8: a 5×5 box contains a 3×4 box with a different origin. -/
theorem boundary_contains_iff_witness :
    Boundary.contains { origin := { line := 0, column := 0 }, width := 5, height := 5 }
      { origin := { line := 9, column := 9 }, width := 3, height := 4 } = true :=
  (boundary_contains_iff
    { origin := { line := 0, column := 0 }, width := 5, height := 5 }
    { origin := { line := 9, column := 9 }, width := 3, height := 4 }).1.mpr
    ⟨by decide, by decide⟩

/-! ### Claims about TextCursor -/

/-- C5: with the target column in range, `seek` returns `Some` of the code-unit
slice from the current column up to (exclusive) the target column and sets the
cursor's position to exactly the target; only the column component of the
target participates in the slicing (its line is accepted but ignored). -/
theorem cursor_seek_slice (c : TextCursor) (t : Position)
    (h1 : c.position.column ≤ t.column) (h2 : t.column ≤ c.node.code_points.length) :
    c.seek t =
      some (some ((c.node.code_points.drop c.position.column).take
              (t.column - c.position.column)),
            { c with position := t })
    ∧ ∀ t2 : Position, t2.column = t.column →
        Option.map Prod.fst (c.seek t2) = Option.map Prod.fst (c.seek t) := by
  constructor
  · simp only [TextCursor.seek, sliceRange, if_pos (And.intro h1 h2)]
  · intro t2 ht
    simp only [TextCursor.seek, ht]
    cases sliceRange c.node.code_points c.position.column t.column <;> simp

/-- Witness for C5: on a node built from `"ab"` with the cursor at the default
position, `seek {0, 2}` returns the two code units of `"ab"` and the cursor's
position becomes `{0, 2}`. -/
theorem cursor_seek_slice_witness :
    (TextCursor.new (TextNode.new_delimitered "ab")).seek { line := 0, column := 2 } =
      some (some [97, 98],
        { position := { line := 0, column := 2 }, node := TextNode.new_delimitered "ab" }) := by
  have h := (cursor_seek_slice (TextCursor.new (TextNode.new_delimitered "ab"))
    { line := 0, column := 2 } (by decide) (by decide)).1
  rw [h]
  rfl

/-- C6: `seek` never returns an inner `None`: whenever it returns, the Rust
`Option` is `Some`; it faults (the slice index panic, the outer `none` here)
exactly when the target column exceeds the unit count or lies before the
current column. -/
theorem cursor_seek_fault_iff (c : TextCursor) (t : Position) :
    (c.seek t = none ↔
      t.column > c.node.code_points.length ∨ t.column < c.position.column)
    ∧ ∀ r c2, c.seek t = some (r, c2) → r.isSome := by
  constructor
  · by_cases h : c.position.column ≤ t.column ∧ t.column ≤ c.node.code_points.length
    · simp only [TextCursor.seek, sliceRange, if_pos h]
      simp
      omega
    · simp only [TextCursor.seek, sliceRange, if_neg h]
      simp
      omega
  · intro r c2 hs
    unfold TextCursor.seek at hs
    cases hsl : sliceRange c.node.code_points c.position.column t.column with
    | none => rw [hsl] at hs; exact absurd hs (by simp)
    | some s => rw [hsl] at hs; simp at hs; rw [← hs.1]; rfl

/-- Witness for C6: seeking past the end of a 2-unit node faults, and an
in-range seek returns an inner `Some`. -/
theorem cursor_seek_fault_iff_witness :
    (TextCursor.new (TextNode.new_delimitered "ab")).seek { line := 0, column := 5 } = none
    ∧ (some [97] : Option (List Nat)).isSome := by
  constructor
  · exact (cursor_seek_fault_iff (TextCursor.new (TextNode.new_delimitered "ab"))
      { line := 0, column := 5 }).1.mpr (by decide)
  · exact (cursor_seek_fault_iff (TextCursor.new (TextNode.new_delimitered "ab"))
      { line := 0, column := 1 }).2 (some [97])
      { position := { line := 0, column := 1 }, node := TextNode.new_delimitered "ab" }
      (by decide)

/-! ### Claims about lines and display -/

/-- C7: `new_delimitered "abc\n"` yields exactly the one line `"abc\n"`; the
four-line input has height 4 and a buffer holding only that node renders back
to the original text. -/
theorem lines_display_round_trip :
    (TextNode.new_delimitered "abc\n").lines = ["abc\n"]
    ∧ (TextNode.new_delimitered "hello i am\n\n\nsomething interesting.\n").dimensions.height = 4
    ∧ (TextBuffer.new.push
        (TextNode.new_delimitered "hello i am\n\n\nsomething interesting.\n")).display =
        "hello i am\n\n\nsomething interesting.\n" := by
  refine ⟨by decide, by decide, by decide⟩

/-! ### Claims about TextBuffer -/

/-- Pushing a list of nodes folds `union` of their dimensions into the
boundary, one push at a time. -/
lemma push_fold_boundary (ns : List TextNode) (b : TextBuffer) :
    (ns.foldl TextBuffer.push b).boundary =
      ns.foldl (fun acc n => Boundary.union acc n.dimensions) b.boundary := by
  induction ns generalizing b with
  | nil => rfl
  | cons n ns ih => simpa [TextBuffer.push] using ih (b.push n)

/-- C3: after any sequence of pushes into a fresh buffer, the boundary is the
fold of `Boundary::union` over the pushed nodes' dimensions starting from the
default boundary; in particular pushing two constructed nodes yields a
boundary equal (in the sense of the derived `PartialEq`) to the union of
their dimensions. -/
theorem buffer_boundary_union_fold :
    (∀ ns : List TextNode,
      (ns.foldl TextBuffer.push TextBuffer.new).boundary =
        ns.foldl (fun acc n => Boundary.union acc n.dimensions) Boundary.default)
    ∧ ∀ s1 s2 : String,
        Boundary.beq
          ((TextBuffer.new.push (TextNode.new_delimitered s1)).push
            (TextNode.new_delimitered s2)).boundary
          ((TextNode.new_delimitered s1).dimensions.union
            (TextNode.new_delimitered s2).dimensions) = true := by
  constructor
  · intro ns
    exact push_fold_boundary ns TextBuffer.new
  · intro s1 s2
    simp [TextBuffer.push, TextBuffer.new, TextNode.new_delimitered, Boundary.union,
      Boundary.default, Boundary.beq, Position.beq]

/-! ### Claims about new_delimitered dimensions -/

/-- Each LF unit seen by the scan closes exactly one range. -/
lemma scan_length (l : List Nat) : ∀ (n : Nat) (st : ScanState),
    ((List.enumFrom n l).foldl scanStep st).ranges.length
      = st.ranges.length + l.count 10 := by
  induction l with
  | nil => intro n st; simp [List.count_nil]
  | cons x l ih =>
    intro n st
    simp only [List.enumFrom, List.foldl_cons]
    rw [ih, List.count_cons]
    by_cases hx : (x == 10) = true
    · simp [scanStep, hx]; omega
    · simp [scanStep, hx]

/-- The running width discriminator stays the maximum of the `units()` of the
accumulated ranges. -/
lemma scan_width (l : List Nat) : ∀ (n : Nat) (st : ScanState),
    st.width = (st.ranges.map TextRange.units).foldl max 0 →
    ((List.enumFrom n l).foldl scanStep st).width
      = ((((List.enumFrom n l).foldl scanStep st).ranges).map TextRange.units).foldl max 0 := by
  induction l with
  | nil => intro n st h; simpa using h
  | cons x l ih =>
    intro n st h
    simp only [List.enumFrom, List.foldl_cons]
    apply ih
    by_cases hx : (x == 10) = true
    · simp only [scanStep, hx, if_true]
      rw [List.map_append, List.foldl_append, ← h]
      simp only [List.map_cons, List.map_nil, List.foldl_cons, List.foldl_nil]
      rcases Nat.lt_or_ge st.width (TextRange.units { start := prevLf st.ranges, «end» := n }) with
        hlt | hge
      · rw [if_pos hlt]; omega
      · rw [if_neg (by omega)]; omega
    · simpa [scanStep, hx] using h

/-- C1: the node built by `new_delimitered` has height equal to the number of
LF code units of the UTF-16 encoding of the input and width equal to the
maximum `units()` over the closed ranges; with no LF both are zero. -/
theorem new_delimitered_height_width (s : String) :
    (TextNode.new_delimitered s).dimensions.height = (encodeUtf16 s).count 10
    ∧ (TextNode.new_delimitered s).dimensions.width
        = (((TextNode.new_delimitered s).line_endings).map TextRange.units).foldl max 0
    ∧ ((encodeUtf16 s).count 10 = 0 →
        (TextNode.new_delimitered s).dimensions.height = 0
        ∧ (TextNode.new_delimitered s).dimensions.width = 0) := by
  have hh : (TextNode.new_delimitered s).dimensions.height = (encodeUtf16 s).count 10 := by
    show (scan (encodeUtf16 s)).ranges.length = (encodeUtf16 s).count 10
    unfold scan
    rw [scan_length]
    simp
  have hw : (TextNode.new_delimitered s).dimensions.width
      = (((TextNode.new_delimitered s).line_endings).map TextRange.units).foldl max 0 := by
    show (scan (encodeUtf16 s)).width
      = (((scan (encodeUtf16 s)).ranges).map TextRange.units).foldl max 0
    unfold scan
    exact scan_width (encodeUtf16 s) 0 { width := 0, ranges := [] } rfl
  refine ⟨hh, hw, fun h0 => ?_⟩
  have hlen : (TextNode.new_delimitered s).line_endings.length = 0 := by
    show (scan (encodeUtf16 s)).ranges.length = 0
    unfold scan
    rw [scan_length]
    simpa using h0
  have hnil : (TextNode.new_delimitered s).line_endings = [] :=
    List.length_eq_zero.mp hlen
  refine ⟨by rw [hh, h0], ?_⟩
  rw [hw, hnil]
  rfl

/-- Witness for C1 on the LF-free input `"xy"`: height and width are zero. -/
theorem new_delimitered_height_width_witness :
    (TextNode.new_delimitered "xy").dimensions.height = 0
    ∧ (TextNode.new_delimitered "xy").dimensions.width = 0 :=
  (new_delimitered_height_width "xy").2.2 (by decide)

/-! ### Claims about the unscanned tail -/

/-- `prevLf` after closing one more range is one past that range's end. -/
lemma prevLf_concat (rs : List TextRange) (r : TextRange) :
    prevLf (rs ++ [r]) = r.«end» + 1 := by
  simp [prevLf, List.getLast?_concat]

/-- Two adjacent drop/take segments of a list merge into one. -/
lemma take_drop_merge (cps : List Nat) (p m e : Nat) (hpm : p ≤ m) (hme : m ≤ e) :
    (cps.drop p).take (m - p) ++ (cps.drop m).take (e - m) = (cps.drop p).take (e - p) := by
  have he : e - p = (m - p) + (e - m) := by omega
  rw [he, List.take_add, List.drop_drop]
  have hm : p + (m - p) = m := by omega
  rw [hm]

/-- Main invariant of the `new_delimitered` scan, by induction over the
unprocessed suffix `l` with processed prefix `pre`: the ranges closed so far
tile the input contiguously from index 0 up to `prevLf` of the accumulator,
every unit between `prevLf` and the scan front is a non-LF, and `prevLf`
(when nonzero) sits one past an LF unit. -/
lemma scan_go (l : List Nat) : ∀ (pre : List Nat) (st : ScanState),
    prevLf st.ranges ≤ pre.length →
    (∀ r ∈ st.ranges, r.start ≤ r.«end» ∧ r.«end» < prevLf st.ranges) →
    (∀ i, prevLf st.ranges ≤ i → i < pre.length → (pre ++ l)[i]? ≠ some 10) →
    (prevLf st.ranges = 0 ∨ (pre ++ l)[prevLf st.ranges - 1]? = some 10) →
    prevLf st.ranges ≤ prevLf ((List.enumFrom pre.length l).foldl scanStep st).ranges
    ∧ prevLf ((List.enumFrom pre.length l).foldl scanStep st).ranges ≤ (pre ++ l).length
    ∧ (∀ r ∈ ((List.enumFrom pre.length l).foldl scanStep st).ranges,
        r.start ≤ r.«end»
        ∧ r.«end» < prevLf ((List.enumFrom pre.length l).foldl scanStep st).ranges)
    ∧ ((List.enumFrom pre.length l).foldl scanStep st).ranges.flatMap (sliceIncl (pre ++ l))
        = st.ranges.flatMap (sliceIncl (pre ++ l))
          ++ ((pre ++ l).drop (prevLf st.ranges)).take
              (prevLf ((List.enumFrom pre.length l).foldl scanStep st).ranges
                - prevLf st.ranges)
    ∧ (∀ i, prevLf ((List.enumFrom pre.length l).foldl scanStep st).ranges ≤ i →
        i < (pre ++ l).length → (pre ++ l)[i]? ≠ some 10)
    ∧ (prevLf ((List.enumFrom pre.length l).foldl scanStep st).ranges = 0
        ∨ (pre ++ l)[prevLf ((List.enumFrom pre.length l).foldl scanStep st).ranges - 1]?
            = some 10) := by
  induction l with
  | nil =>
    intro pre st h1 h2 h3 h4
    refine ⟨Nat.le_refl _, by simpa using h1, h2, by simp, ?_, h4⟩
    intro i hi hlt
    exact h3 i hi (by simpa using hlt)
  | cons x l ih =>
    intro pre st h1 h2 h3 h4
    have hxl : pre ++ x :: l = (pre ++ [x]) ++ l := by simp
    have hfold : (List.enumFrom pre.length (x :: l)).foldl scanStep st
        = (List.enumFrom (pre ++ [x]).length l).foldl scanStep (scanStep st (pre.length, x)) := by
      simp [List.enumFrom]
    have hmid : (pre ++ x :: l)[pre.length]? = some x := by
      rw [List.getElem?_append_right (Nat.le_refl pre.length)]
      simp
    by_cases hx : (x == 10) = true
    · have hx10 : x = 10 := by simpa using hx
      have hranges : (scanStep st (pre.length, x)).ranges
          = st.ranges ++ [{ start := prevLf st.ranges, «end» := pre.length }] := by
        simp [scanStep, hx]
      have hprev1 : prevLf (scanStep st (pre.length, x)).ranges = pre.length + 1 := by
        rw [hranges, prevLf_concat]
      have h1' : prevLf (scanStep st (pre.length, x)).ranges ≤ (pre ++ [x]).length := by
        rw [hprev1]; simp
      have h2' : ∀ r ∈ (scanStep st (pre.length, x)).ranges,
          r.start ≤ r.«end» ∧ r.«end» < prevLf (scanStep st (pre.length, x)).ranges := by
        rw [hranges, prevLf_concat]
        have hb : ({ start := prevLf st.ranges, «end» := pre.length } : TextRange).«end»
            = pre.length := rfl
        rw [hb]
        intro r hr
        rcases List.mem_append.mp hr with hr | hr
        · have hh := h2 r hr
          omega
        · have hr' : r = { start := prevLf st.ranges, «end» := pre.length } := by
            simpa using hr
          subst hr'
          exact ⟨h1, Nat.lt_succ_self _⟩
      have h3' : ∀ i, prevLf (scanStep st (pre.length, x)).ranges ≤ i →
          i < (pre ++ [x]).length → ((pre ++ [x]) ++ l)[i]? ≠ some 10 := by
        rw [hprev1]
        intro i hi hlt
        have : ((pre ++ [x]) : List Nat).length = pre.length + 1 := by simp
        omega
      have h4' : prevLf (scanStep st (pre.length, x)).ranges = 0
          ∨ ((pre ++ [x]) ++ l)[prevLf (scanStep st (pre.length, x)).ranges - 1]? = some 10 := by
        right
        rw [hprev1, ← hxl]
        simpa [hx10] using hmid
      obtain ⟨g1, g2, g3, g4, g5, g6⟩ :=
        ih (pre ++ [x]) (scanStep st (pre.length, x)) h1' h2' h3' h4'
      rw [← hxl] at g2 g4 g5 g6
      rw [hprev1] at g1 g4
      refine ⟨?_, ?_, ?_, ?_, ?_, ?_⟩
      · rw [hfold]; omega
      · rw [hfold]; exact g2
      · rw [hfold]; exact g3
      · rw [hfold, g4, hranges, List.flatMap_append]
        have hslice : [({ start := prevLf st.ranges, «end» := pre.length } : TextRange)].flatMap
            (sliceIncl (pre ++ x :: l))
            = ((pre ++ x :: l).drop (prevLf st.ranges)).take (pre.length + 1 - prevLf st.ranges) := by
          simp [sliceIncl]
        rw [hslice, List.append_assoc]
        congr 1
        exact take_drop_merge (pre ++ x :: l) (prevLf st.ranges) (pre.length + 1) _
          (by omega) g1
      · rw [hfold]; exact g5
      · rw [hfold]; exact g6
    · have hxne : x ≠ 10 := by
        intro h
        exact hx (by simp [h])
      have hstep : scanStep st (pre.length, x) = st := by
        simp [scanStep, hx]
      have h1' : prevLf st.ranges ≤ (pre ++ [x]).length := by
        have : ((pre ++ [x]) : List Nat).length = pre.length + 1 := by simp
        omega
      have h3' : ∀ i, prevLf st.ranges ≤ i →
          i < (pre ++ [x]).length → ((pre ++ [x]) ++ l)[i]? ≠ some 10 := by
        intro i hi hlt
        rw [← hxl]
        have hlt' : i < pre.length + 1 := by simpa using hlt
        rcases Nat.lt_or_ge i pre.length with hlt2 | hge
        · exact h3 i hi hlt2
        · have hieq : i = pre.length := by omega
          subst hieq
          rw [hmid]
          simpa using hxne
      have h4' : prevLf st.ranges = 0
          ∨ ((pre ++ [x]) ++ l)[prevLf st.ranges - 1]? = some 10 := by
        rw [← hxl]
        exact h4
      obtain ⟨g1, g2, g3, g4, g5, g6⟩ := ih (pre ++ [x]) st h1' h2 h3' h4'
      rw [← hxl] at g2 g4 g5 g6
      refine ⟨?_, ?_, ?_, ?_, ?_, ?_⟩ <;> rw [hfold, hstep]
      · exact g1
      · exact g2
      · exact g3
      · exact g4
      · exact g5
      · exact g6

/-- C9: the closed ranges tile exactly the code units up to and including the
last LF (nothing at all when there is no LF), so the units after the last LF
are stored in `code_points` but belong to no `TextRange`: every range ends
before `scanStop`, the range slices concatenate to the input's first
`scanStop` units, no LF occurs at or after `scanStop`, and `scanStop` (when
nonzero) is one past an LF. -/
theorem trailing_units_unranged (s : String) :
    (TextNode.new_delimitered s).code_points = encodeUtf16 s
    ∧ scanStop (encodeUtf16 s) ≤ (encodeUtf16 s).length
    ∧ (∀ r ∈ (TextNode.new_delimitered s).line_endings, r.«end» < scanStop (encodeUtf16 s))
    ∧ (TextNode.new_delimitered s).line_endings.flatMap (sliceIncl (encodeUtf16 s))
        = (encodeUtf16 s).take (scanStop (encodeUtf16 s))
    ∧ (∀ i, scanStop (encodeUtf16 s) ≤ i → (encodeUtf16 s)[i]? ≠ some 10)
    ∧ (scanStop (encodeUtf16 s) = 0
        ∨ (encodeUtf16 s)[scanStop (encodeUtf16 s) - 1]? = some 10) := by
  obtain ⟨g1, g2, g3, g4, g5, g6⟩ :=
    scan_go (encodeUtf16 s) [] { width := 0, ranges := [] }
      (by simp [prevLf]) (by simp) (by simp) (Or.inl rfl)
  simp only [List.length_nil, List.nil_append, List.flatMap_nil, prevLf, List.getLast?_nil,
    List.nil_append] at g1 g2 g3 g4 g5 g6
  have hscan : (TextNode.new_delimitered s).line_endings = (scan (encodeUtf16 s)).ranges := rfl
  have hstop : scanStop (encodeUtf16 s)
      = prevLf ((List.enumFrom 0 (encodeUtf16 s)).foldl scanStep
          { width := 0, ranges := [] }).ranges := rfl
  refine ⟨rfl, ?_, ?_, ?_, ?_, ?_⟩
  · rw [hstop]; exact g2
  · rw [hscan, hstop]
    intro r hr
    exact (g3 r hr).2
  · rw [hscan, hstop]
    simpa using g4
  · intro i hi
    rcases Nat.lt_or_ge i (encodeUtf16 s).length with hlt | hge
    · exact g5 i (by rw [hstop] at hi; exact hi) hlt
    · rw [List.getElem?_eq_none hge]
      simp
  · rw [hstop]
    exact g6

/-- Witness for C9 on `"a\nbc"` (last LF at index 1, `scanStop = 2`): the one
range ends before 2 and index 3 holds no LF. -/
theorem trailing_units_unranged_witness :
    ({ start := 0, «end» := 1 } : TextRange).«end» < scanStop (encodeUtf16 "a\nbc")
    ∧ (encodeUtf16 "a\nbc")[3]? ≠ some 10 :=
  ⟨(trailing_units_unranged "a\nbc").2.2.1 { start := 0, «end» := 1 } (by decide),
    (trailing_units_unranged "a\nbc").2.2.2.2.1 3 (by decide)⟩
